import Mathlib

/-!
# Verification of the rsb rule registry and matching engine

Shallow embedding of the Go sources of `cavcrosby/rsb`:

* `rule/ramunderprice/ramunderprice.go` — the `RamUnderPrice` rule
  (its regexes `(?i)\bRAM\b` and `^\$\d+\.*\d*$`, `RegisterConfigs`, `Match`);
* `rule` package — the rule registry (`RegisterRule`, `RuleInRuleRegistry`,
  `GetRegisteredRules`);
* `heuristic/heuristic.go` — the per-post-all-rules matcher `appliedTo`;
* `main` — the per-rule-last-match matcher `matchPosts` and the
  configuration binder `getRules`.

Go strings are modelled as `List Char`; Go maps are modelled as association
lists where assignment conses a new entry and lookup takes the first hit
(observationally the same last-write-wins behaviour as a Go map).
-/

namespace Rsb

/-- A reddit post record (the fields of `graw`'s `reddit.Post` that the core
reads).  Go strings are modelled as `List Char`. -/
structure Post where
  id : List Char
  title : List Char
  author : List Char
  url : List Char
  stickied : Bool
deriving DecidableEq, Repr

/-! ## The regexes of `ramunderprice.go`

`reRamInTitle  = (?i)\bRAM\b`
`reCostInTitle = ^\$\d+\.*\d*$`

Go's `\b` is an ASCII word boundary: word characters are `[0-9A-Za-z_]`.
`^`/`$` (no multiline flag) anchor to the start/end of the whole text, so
`reCostInTitle` can only match the entire title. -/

/-- Go regexp word character (`\w` = `[0-9A-Za-z_]`). -/
def isWordChar (c : Char) : Bool := c.isAlphanum || c = '_'

/-- Does `(?i)RAM\b` match at the head of `l`, with `prev` the character just
before the match position (`none` at the start of the text)?  The `\b` on the
left is checked against `prev`. -/
def isRamWordAt (prev : Option Char) : List Char → Bool
  | r :: a :: m :: rest =>
    (match prev with
     | none => true
     | some p => !isWordChar p) &&
    (r = 'R' || r = 'r') && (a = 'A' || a = 'a') && (m = 'M' || m = 'm') &&
    (match rest with
     | [] => true
     | c :: _ => !isWordChar c)
  | _ => false

/-- Scan every position of the text for a `(?i)\bRAM\b` match; `prev` is the
character preceding the current position. -/
def ramSearch : Option Char → List Char → Bool
  | _, [] => false
  | prev, c :: rest => isRamWordAt prev (c :: rest) || ramSearch (some c) rest

/-- `reRamInTitle.FindStringIndex(title) != nil`: the title contains the token
`RAM` as a whole word, case-insensitively. -/
def ramInTitle (title : List Char) : Bool := ramSearch none title

/-- Trailing part of the cost shape after the dots: `\d*` then end of text. -/
def digitsTail : List Char → Bool
  | [] => true
  | c :: rest => c.isDigit && digitsTail rest

/-- Middle part of the cost shape: `\.*\d*` then end of text. -/
def dotsPhase : List Char → Bool
  | [] => true
  | c :: rest => if c = '.' then dotsPhase rest else c.isDigit && digitsTail rest

/-- After at least one digit has been read: `\d*\.*\d*` then end of text. -/
def digitsPhase : List Char → Bool
  | [] => true
  | c :: rest => if c.isDigit then digitsPhase rest else c = '.' && dotsPhase rest

/-- Full-string match of `^\$\d+\.*\d*$`: a `$`, one or more digits, zero or
more dots, zero or more digits, end of text. -/
def costShape : List Char → Bool
  | c :: d :: rest => c = '$' && (d.isDigit && digitsPhase rest)
  | _ => false

/-- `reCostInTitle.FindAllString(title, -1)`: since the pattern is anchored by
`^` and `$` (no multiline flag), the only possible match is the entire title,
so the result is `[title]` when the whole title has the cost shape and `[]`
otherwise. -/
def findAllCost (title : List Char) : List (List Char) :=
  if costShape title then [title] else []

/-- `regexp.MustCompile(`\d+$`).FindAllString(s, -1)` yields the maximal run
of digits at the end of `s` (empty when `s` does not end in a digit). -/
def trailingDigits (s : List Char) : List Char :=
  ((s.reverse).takeWhile Char.isDigit).reverse

/-- Numeric value of a digit string. -/
def digitsToNat (l : List Char) : Nat :=
  l.foldl (fun acc c => acc * 10 + (c.toNat - '0'.toNat)) 0

/-- Go's `int` is 64-bit on the targeted platforms; `strconv.Atoi` fails with
a range error above `2^63 - 1`. -/
def goMaxInt : Nat := 2 ^ 63 - 1

/-- `strconv.Atoi` restricted to the digit-only tokens produced by `\d+$`:
returns the value, or `none` (an error) when the token is empty, contains a
non-digit, or overflows a 64-bit `int`. -/
def atoi (l : List Char) : Option Int :=
  if l = [] then none
  else if l.all Char.isDigit then
    if digitsToNat l ≤ goMaxInt then some (Int.ofNat (digitsToNat l)) else none
  else none

/-- Outcome of running a fragment of Go code that either returns a `bool` or
aborts the process (`log.Panic`, or an out-of-range slice index). -/
inductive MatchOutcome where
  | ok (b : Bool)
  | fatal
deriving DecidableEq, Repr

/-- Lines 69–76 of `ramunderprice.go`: extract the trailing digits of the
single cost substring, `strconv.Atoi` them (`log.Panic` on error, modelled by
`.fatal`; indexing `[0]` of an empty match list also aborts), and compare
against the configured price. -/
def evalCost (cost : List Char) (price : Int) : MatchOutcome :=
  let tok := trailingDigits cost
  if tok = [] then .fatal
  else
    match atoi tok with
    | none => .fatal
    | some n => if n > price then .ok false else .ok true

/-- Lines 59–73 of `ramunderprice.go`: `if len(costs) != 1 { return false }`,
otherwise evaluate `costs[0]` against the price. -/
def matchCosts (price : Int) : List (List Char) → MatchOutcome
  | [c] => evalCost c price
  | _ => .ok false

/-- The `RamUnderPrice` rule struct: its single configuration field
`Price int` (JSON key `"price"`, default 0). -/
structure RamUnderPrice where
  Price : Int
deriving DecidableEq, Repr

/-- `(*RamUnderPrice).Name()`. -/
def RamUnderPrice.Name (_ : RamUnderPrice) : List Char :=
  ['r', 'a', 'm', 'u', 'n', 'd', 'e', 'r', 'p', 'r', 'i', 'c', 'e']

/-- `(*RamUnderPrice).Match(post)`: false when the title has no whole-word
`RAM`; otherwise find all cost substrings, return false unless exactly one was
found, and otherwise compare its trailing digits against `Price`. -/
def RamUnderPrice.Match (r : RamUnderPrice) (post : Post) : MatchOutcome :=
  if ramInTitle post.title = false then .ok false
  else matchCosts r.Price (findAllCost post.title)

/-- A configuration payload (the JSON bytes handed to `RegisterConfigs`, or
the decoded configs map of a configuration entry): it either sets the
price (`{"price": n}`), is a well-formed object not touching the price, is
rejected by `json.Unmarshal` for the rule's shape, or cannot even be
re-serialized by `json.Marshal`. -/
inductive Payload where
  | setPrice (n : Int)
  | noop
  | badUnmarshal
  | badMarshal
deriving DecidableEq, Repr

/-- Errors surfaced by the configuration binder: a `json.Marshal` failure, a
registry miss (carrying the offending id), or a `RegisterConfigs`
(`json.Unmarshal`) failure. -/
inductive BindErr where
  | marshalErr
  | notFound (id : List Char)
  | configErr
deriving DecidableEq, Repr

/-- `(*RamUnderPrice).RegisterConfigs(configs)`: `json.Unmarshal(configs, r)`.
The payload either sets the `Price` field, leaves the struct unchanged, or
fails to deserialize. -/
def RamUnderPrice.RegisterConfigs (r : RamUnderPrice) (configs : Payload) :
    Except BindErr RamUnderPrice :=
  match configs with
  | .setPrice n => .ok { Price := n }
  | .noop => .ok r
  | _ => .error .configErr

/-! ## The `heuristic` package (`heuristic.go`)

Its `Rule` interface carries `Name` and a boolean `Match`. -/

/-- A rule as consumed by the matchers: a name and a boolean predicate over
posts (the `rule.Rule` interface seen by `heuristic.appliedTo` and by
`main.matchPosts`). -/
structure HRule where
  Name : List Char
  Match : Post → Bool

/-- `(*Heuristic).appliedTo(posts, matches)`: for each post, run every rule
(the inner loop clears `postPasses` on any failing rule and never breaks
early), and append the post to `matches` when `postPasses` survived. -/
def appliedTo (rules : List HRule) : List Post → List Post → List Post
  | [], acc => acc
  | post :: rest, acc =>
    appliedTo rules rest
      (if rules.foldl (fun b r => if r.Match post then b else false) true
       then acc ++ [post] else acc)

/-! ## `main.matchPosts` (per-rule-last-match mode)

The Go `map[string]*reddit.Post` is modelled as an association list:
assignment conses a new entry, lookup returns the first hit. -/

/-- Lookup in the modelled Go map (first hit = most recent write). -/
def mapLookup : List (List Char × Post) → List Char → Option Post
  | [], _ => none
  | (k, v) :: rest, n => if n = k then some v else mapLookup rest n

/-- `matchPosts(rules, posts)`: for each post, for each rule, if the rule
matches, `matches[rule.Name()] = post`. -/
def matchPosts (rules : List HRule) (posts : List Post) : List (List Char × Post) :=
  posts.foldl
    (fun m post =>
      rules.foldl (fun m2 r => if r.Match post then (r.Name, post) :: m2 else m2) m)
    []

/-- The last post of the batch a rule matches (`none` when it matches no
post): the reference value claim C4 compares `matchPosts` against. -/
def lastMatch (r : HRule) (posts : List Post) : Option Post :=
  posts.foldl (fun acc p => if r.Match p then some p else acc) none

/-! ## The `rule` package registry

The registry maps a rule's `Name()` to the rule instance.  A registry-held
instance is modelled by `RegRule`: its name and its mutable configuration
state (the repository's sole concrete rule, `RamUnderPrice`, carries the one
configuration field `Price`).  The Go map is again an association list with
cons-on-write, first-hit lookup. -/

/-- A rule instance as held by the registry: its `Name()` and its mutable
configuration state. -/
structure RegRule where
  name : List Char
  price : Int
deriving DecidableEq, Repr

/-- The error of `RuleInRuleRegistry`:
`fmt.Errorf("the following rule is not known: %v", ruleName)`. -/
inductive RuleErr where
  | notFound (name : List Char)
deriving DecidableEq, Repr

/-- The internal rule registry `map[string]Rule`. -/
abbrev RuleRegistry := List (List Char × RegRule)

/-- Map lookup on the registry. -/
def lookupMap : RuleRegistry → List Char → Option RegRule
  | [], _ => none
  | (k, r) :: rest, n => if n = k then some r else lookupMap rest n

/-- `RegisterRule(r)`: `ruleRegistry[r.Name()] = r`. -/
def RegisterRule (reg : RuleRegistry) (r : RegRule) : RuleRegistry :=
  (r.name, r) :: reg

/-- `RuleInRuleRegistry(ruleName)`: the registered rule, or a `notFound`
error carrying the offending name. -/
def RuleInRuleRegistry (reg : RuleRegistry) (ruleName : List Char) :
    Except RuleErr RegRule :=
  match lookupMap reg ruleName with
  | some r => .ok r
  | none => .error (.notFound ruleName)

/-- `GetRegisteredRules(ruleNames)` (the `[]string -> ([]Rule, error)`
variant): resolve each name in order, accumulating into `rulesFound`, and
return the accumulated rules with the error on the first unresolved name. -/
def GetRegisteredRules (reg : RuleRegistry) :
    List (List Char) → List RegRule → List RegRule × Option RuleErr
  | [], rulesFound => (rulesFound, none)
  | n :: rest, rulesFound =>
    match RuleInRuleRegistry reg n with
    | .ok r => GetRegisteredRules reg rest (rulesFound ++ [r])
    | .error e => (rulesFound, some e)

/-! ## `main.getRules` (the configuration binder) -/

/-- A `RuleConfig` entry of the configuration file: the rule id and its
free-form configs map (`none` models an empty map, `len(rc.Configs) == 0`). -/
structure RuleConfig where
  id : List Char
  configs : Option Payload
deriving DecidableEq, Repr

/-- `json.Marshal(rc.Configs)` re-serializes the configs map; it fails only
on the `badMarshal` payload. -/
def marshalConfigs (p : Payload) : Option Payload :=
  match p with
  | .badMarshal => none
  | _ => some p

/-- `RegisterConfigs` on a registry-held rule instance (`json.Unmarshal` into
the rule struct): sets the price, leaves it, or fails; the name is never
touched. -/
def RegRule.RegisterConfigs (r : RegRule) (configs : Payload) :
    Except BindErr RegRule :=
  match configs with
  | .setPrice n => .ok { r with price := n }
  | .noop => .ok r
  | _ => .error .configErr

/-- One iteration of the `getRules` loop on entry `rc`: marshal the configs
(when non-empty), resolve the id, apply `RegisterConfigs` — any failure
returns the error; success yields the updated registry (the configured
instance is a shared registry-held pointer, so the write is visible through
the registry) and the resolved rule. -/
def getRulesStep (reg : RuleRegistry) (rc : RuleConfig) :
    Except BindErr (RuleRegistry × RegRule) :=
  match rc.configs with
  | some payload =>
    match marshalConfigs payload with
    | none => .error .marshalErr
    | some configsData =>
      match RuleInRuleRegistry reg rc.id with
      | .error (.notFound n) => .error (.notFound n)
      | .ok r =>
        match r.RegisterConfigs configsData with
        | .error e => .error e
        | .ok r2 => .ok ((rc.id, r2) :: reg, r2)
  | none =>
    match RuleInRuleRegistry reg rc.id with
    | .error (.notFound n) => .error (.notFound n)
    | .ok r => .ok (reg, r)

/-- `getRules(rcs)`: process the entries in order, accumulating resolved
rules; on the first failing entry return the rules so far with the error
(the registry keeps every earlier configuration — no rollback). -/
def getRules (reg : RuleRegistry) :
    List RuleConfig → List RegRule → RuleRegistry × List RegRule × Option BindErr
  | [], rules => (reg, rules, none)
  | rc :: rest, rules =>
    match getRulesStep reg rc with
    | .error e => (reg, rules, some e)
    | .ok (reg2, r) => getRules reg2 rest (rules ++ [r])

/-! ## Concrete inputs used by the example theorems and witnesses -/

/-- A post with the given title (the other fields are irrelevant to every
rule in the repository). -/
def mkPost (title : List Char) : Post :=
  { id := [], title := title, author := [], url := [], stickied := false }

/-- The spec's example post `"32GB RAM $99.99"`. -/
def post9999 : Post := mkPost "32GB RAM $99.99".data

/-- A post with a whole-word `RAM` title. -/
def ramPost : Post := mkPost "RAM".data

/-- Example post `P1`. -/
def P1ex : Post := { id := "P1".data, title := "first".data, author := [], url := [], stickied := false }

/-- Example post `P2`. -/
def P2ex : Post := { id := "P2".data, title := "second".data, author := [], url := [], stickied := false }

/-- Example rule `R1`: matches every post. -/
def R1ex : HRule := { Name := "r1".data, Match := fun _ => true }

/-- Example rule `R2`: matches exactly `P2ex`. -/
def R2ex : HRule := { Name := "r2".data, Match := fun p => decide (p = P2ex) }

/-- A rule named `"n"` matching exactly `P2ex`. -/
def RnA : HRule := { Name := "n".data, Match := fun p => decide (p = P2ex) }

/-- A second, different rule also named `"n"`, matching exactly `P1ex`. -/
def RnB : HRule := { Name := "n".data, Match := fun p => decide (p = P1ex) }

/-! ## Helper lemmas about the two title regexes -/

theorem ramSearch_has_r : ∀ (l : List Char) (prev : Option Char),
    ramSearch prev l = true → ∃ c ∈ l, c = 'R' ∨ c = 'r'
  | [], _, h => by simp [ramSearch] at h
  | c :: rest, prev, h => by
    rw [ramSearch, Bool.or_eq_true] at h
    rcases h with h | h
    · refine ⟨c, List.mem_cons_self c rest, ?_⟩
      rcases rest with _ | ⟨a, rest⟩
      · simp [isRamWordAt] at h
      · rcases rest with _ | ⟨m, rest2⟩
        · simp [isRamWordAt] at h
        · simp only [isRamWordAt, Bool.and_eq_true, Bool.or_eq_true,
            decide_eq_true_iff] at h
          exact h.1.1.1.2
    · obtain ⟨c2, hc2, hr⟩ := ramSearch_has_r rest (some c) h
      exact ⟨c2, List.mem_cons_of_mem _ hc2, hr⟩

theorem digitsTail_chars : ∀ l, digitsTail l = true → ∀ c ∈ l, c.isDigit = true
  | [], _, c, hc => by simp at hc
  | d :: rest, h, c, hc => by
    rw [digitsTail, Bool.and_eq_true] at h
    rcases List.mem_cons.mp hc with rfl | hc
    · exact h.1
    · exact digitsTail_chars rest h.2 c hc

theorem dotsPhase_chars : ∀ l, dotsPhase l = true → ∀ c ∈ l, c = '.' ∨ c.isDigit = true
  | [], _, c, hc => by simp at hc
  | d :: rest, h, c, hc => by
    rw [dotsPhase] at h
    rcases List.mem_cons.mp hc with rfl | hc
    · by_cases hd : c = '.'
      · exact Or.inl hd
      · rw [if_neg hd, Bool.and_eq_true] at h
        exact Or.inr h.1
    · by_cases hd : d = '.'
      · rw [if_pos hd] at h
        exact dotsPhase_chars rest h c hc
      · rw [if_neg hd, Bool.and_eq_true] at h
        exact Or.inr (digitsTail_chars rest h.2 c hc)

theorem digitsPhase_chars : ∀ l, digitsPhase l = true → ∀ c ∈ l, c.isDigit = true ∨ c = '.'
  | [], _, c, hc => by simp at hc
  | d :: rest, h, c, hc => by
    rw [digitsPhase] at h
    rcases List.mem_cons.mp hc with rfl | hc
    · by_cases hd : c.isDigit
      · exact Or.inl hd
      · rw [if_neg hd, Bool.and_eq_true, decide_eq_true_iff] at h
        exact Or.inr h.1
    · by_cases hd : d.isDigit
      · rw [if_pos hd] at h
        exact digitsPhase_chars rest h c hc
      · rw [if_neg hd, Bool.and_eq_true] at h
        rcases dotsPhase_chars rest h.2 c hc with h2 | h2
        · exact Or.inr h2
        · exact Or.inl h2

theorem costShape_chars (l : List Char) (h : costShape l = true) :
    ∀ c ∈ l, c = '$' ∨ c.isDigit = true ∨ c = '.' := by
  rcases l with _ | ⟨c0, rest⟩
  · simp [costShape] at h
  rcases rest with _ | ⟨d, rest⟩
  · simp [costShape] at h
  simp only [costShape, Bool.and_eq_true, decide_eq_true_iff] at h
  intro c hc
  rcases List.mem_cons.mp hc with rfl | hc
  · exact Or.inl h.1
  rcases List.mem_cons.mp hc with rfl | hc
  · exact Or.inr (Or.inl h.2.1)
  rcases digitsPhase_chars rest h.2.2 c hc with h2 | h2
  · exact Or.inr (Or.inl h2)
  · exact Or.inr (Or.inr h2)

/-- The two regexes of `ramunderprice.go` are incompatible: a title containing
a whole-word `RAM` holds an `R` or `r`, while a title fully matching
`^\$\d+\.*\d*$` holds only `$`, digits and dots. -/
theorem ramInTitle_costShape (l : List Char) (h : ramInTitle l = true) :
    costShape l = false := by
  by_contra hcs
  rw [Bool.not_eq_false] at hcs
  obtain ⟨c, hc, hr⟩ := ramSearch_has_r l none h
  have := costShape_chars l hcs c hc
  rcases hr with rfl | rfl
  · rcases this with h2 | h2 | h2 <;> simp at h2
  · rcases this with h2 | h2 | h2 <;> simp at h2

/-- `RamUnderPrice.Match` is the constant `false`, whatever the configured
price: when the RAM check fails it returns false at once, and when it
succeeds the title contains an `R`/`r`, so the fully anchored cost pattern
cannot match the title and zero cost substrings are found. -/
theorem ramUnderPrice_match_const (r : RamUnderPrice) (p : Post) :
    r.Match p = .ok false := by
  rw [RamUnderPrice.Match]
  by_cases h : ramInTitle p.title = true
  · have hcs := ramInTitle_costShape p.title h
    simp [h, findAllCost, hcs, matchCosts]
  · rw [Bool.not_eq_true] at h
    simp [h]

/-- Claim C2: for every post and every configured ceiling,
`RamUnderPrice.Match` returns false — the anchored cost pattern
`^\$\d+\.*\d*$` and the whole-word RAM check are never simultaneously
satisfiable, so the true-returning branch is unreachable. -/
theorem claim2_match_always_false (r : RamUnderPrice) (p : Post) :
    r.Match p = .ok false :=
  ramUnderPrice_match_const r p

/-- Claim C1: the claim fails on the code.  On the spec's own example — a
rule configured with ceiling 100 and a post titled `"32GB RAM $99.99"` — the
title contains a whole-word RAM, the substring `"$99.99"` has the cost shape
and evaluates under the ceiling, yet `Match` returns false, because
`FindAllString` with the `^`/`$`-anchored cost pattern finds no cost
substring inside the longer title. -/
theorem claim1_price_ceiling_bug :
    ramInTitle post9999.title = true ∧
    costShape "$99.99".data = true ∧
    evalCost "$99.99".data 100 = .ok true ∧
    RamUnderPrice.Match ⟨100⟩ post9999 = .ok false := by
  refine ⟨by decide, by decide, by decide, by decide⟩

/-- Claim C8: reconfiguring does replace the ceiling (`RegisterConfigs` is
last-write-wins on `Price`), but `Match` results never change: `Match` does
not depend on the configured price at all (it is constantly false), so no
post distinguishes any two ceilings — contradicting the claim's required
existence of one. -/
theorem claim8_reconfigure_bug :
    ((RamUnderPrice.mk 0).RegisterConfigs (.setPrice 100) = .ok ⟨100⟩) ∧
    ((RamUnderPrice.mk 50).RegisterConfigs (.setPrice 100) = .ok ⟨100⟩) ∧
    (∀ (p1 p2 : Int) (post : Post),
      RamUnderPrice.Match ⟨p1⟩ post = RamUnderPrice.Match ⟨p2⟩ post) ∧
    RamUnderPrice.Match ⟨0⟩ post9999 = .ok false ∧
    RamUnderPrice.Match ⟨100⟩ post9999 = .ok false := by
  refine ⟨rfl, rfl, ?_, by decide, by decide⟩
  intro p1 p2 post
  rw [ramUnderPrice_match_const ⟨p1⟩ post, ramUnderPrice_match_const ⟨p2⟩ post]

/-- Claim C9: in the price-evaluation fragment of `Match` (lines 69–76), a
numeric token that `strconv.Atoi` rejects aborts the run (`log.Panic`,
modelled `.fatal`) and is never coerced to an ordinary boolean return. -/
theorem claim9_parse_failure_fatal (cost : List Char) (price : Int)
    (h : atoi (trailingDigits cost) = none) :
    evalCost cost price = .fatal ∧ ∀ b, evalCost cost price ≠ .ok b := by
  have hfatal : evalCost cost price = .fatal := by
    rw [evalCost]
    by_cases he : trailingDigits cost = []
    · simp [he]
    · simp [he, h]
  exact ⟨hfatal, fun b hb => by rw [hfatal] at hb; exact MatchOutcome.noConfusion hb⟩

/-- Witness for claim C9: a 20-digit price overflows Go's 64-bit `int`, so
`Atoi` fails and the fragment aborts instead of returning false. -/
theorem claim9_witness :
    evalCost "$99999999999999999999".data 100 = .fatal ∧
    ∀ b, evalCost "$99999999999999999999".data 100 ≠ .ok b :=
  claim9_parse_failure_fatal "$99999999999999999999".data 100 (by decide)

/-- Claim C10: the `len(costs) != 1` dispatch of `Match`: zero cost
substrings yield false, more than one yields false, and exactly one proceeds
to the price evaluation; and after the RAM gate, `Match` is exactly this
dispatch applied to the found cost substrings. -/
theorem claim10_cost_count_dispatch :
    (∀ price : Int, matchCosts price [] = .ok false) ∧
    (∀ (price : Int) (costs : List (List Char)), 1 < costs.length →
      matchCosts price costs = .ok false) ∧
    (∀ (price : Int) (c : List Char), matchCosts price [c] = evalCost c price) ∧
    (∀ (r : RamUnderPrice) (post : Post), ramInTitle post.title = true →
      r.Match post = matchCosts r.Price (findAllCost post.title)) := by
  refine ⟨fun _ => rfl, ?_, fun _ _ => rfl, ?_⟩
  · intro price costs hlen
    match costs with
    | c1 :: c2 :: rest => rfl
    | [c] => simp at hlen
    | [] => simp at hlen
  · intro r post h
    rw [RamUnderPrice.Match, h]
    simp

/-- Witness for claim C10: two cost substrings dispatch to false, and on a
whole-word-RAM title `Match` agrees with the dispatch on the found costs. -/
theorem claim10_witness :
    matchCosts 100 ["$5".data, "$7".data] = .ok false ∧
    RamUnderPrice.Match ⟨100⟩ ramPost = matchCosts 100 (findAllCost ramPost.title) :=
  ⟨claim10_cost_count_dispatch.2.1 100 ["$5".data, "$7".data] (by decide),
   claim10_cost_count_dispatch.2.2.2 ⟨100⟩ ramPost (by decide)⟩

/-! ## The per-post-all-rules matcher (`heuristic.appliedTo`) -/

/-- The `postPasses` inner loop is the conjunction of the rules' matches. -/
theorem foldl_postPasses (post : Post) : ∀ (rules : List HRule) (b : Bool),
    rules.foldl (fun b r => if r.Match post then b else false) b =
      (b && rules.all fun r => r.Match post)
  | [], b => by simp
  | r :: rest, b => by
    rw [List.foldl_cons, foldl_postPasses post rest, List.all_cons]
    cases hm : r.Match post <;> simp [hm]

/-- `appliedTo` appends to its accumulator exactly the posts passing every
rule, in batch order. -/
theorem appliedTo_eq_filter (rules : List HRule) : ∀ (posts acc : List Post),
    appliedTo rules posts acc = acc ++ posts.filter fun p => rules.all fun r => r.Match p
  | [], acc => by simp [appliedTo]
  | p :: rest, acc => by
    rw [appliedTo, foldl_postPasses p rules true,
      appliedTo_eq_filter rules rest, List.filter_cons]
    cases hp : (rules.all fun r => r.Match p) <;> simp [hp]

/-- Claim C3: in per-post-all-rules mode a post is kept exactly when every
rule matches it, output in batch order; with R1 always true and R2 true only
for P2, applying to its posts `[P1, P2]` yields exactly `[P2]`. -/
theorem claim3_appliedTo_conjunction :
    (∀ (rules : List HRule) (posts : List Post),
      appliedTo rules posts [] =
        posts.filter fun p => rules.all fun r => r.Match p) ∧
    appliedTo [R1ex, R2ex] [P1ex, P2ex] [] = [P2ex] := by
  constructor
  · intro rules posts
    rw [appliedTo_eq_filter rules posts []]
    simp
  · rw [appliedTo_eq_filter [R1ex, R2ex] [P1ex, P2ex] []]
    decide

/-! ## The per-rule-last-match matcher (`main.matchPosts`) -/

/-- The inner loop over the rules leaves keys alone that name no rule of the
list. -/
theorem matchPosts_inner_other (post : Post) (k : List Char) :
    ∀ (rules : List HRule) (m : List (List Char × Post)),
    (∀ r2 ∈ rules, r2.Name ≠ k) →
    mapLookup
      (rules.foldl (fun m2 r => if r.Match post then (r.Name, post) :: m2 else m2) m)
      k = mapLookup m k
  | [], m, _ => rfl
  | rr :: rest, m, hne => by
    rw [List.foldl_cons]
    rw [matchPosts_inner_other post k rest _ fun r2 h2 => hne r2 (List.mem_cons_of_mem rr h2)]
    cases hm : rr.Match post
    · simp
    · have : k ≠ rr.Name := fun h => hne rr (List.mem_cons_self rr rest) h.symm
      simp [mapLookup, this]

/-- Effect of one post's inner loop at the key of a rule whose name is not
shared by any other rule of the list. -/
theorem matchPosts_inner_at (post : Post) :
    ∀ (rules : List HRule) (m : List (List Char × Post)) (r : HRule),
    r ∈ rules → (rules.map HRule.Name).Nodup →
    mapLookup
      (rules.foldl (fun m2 rr => if rr.Match post then (rr.Name, post) :: m2 else m2) m)
      r.Name = if r.Match post then some post else mapLookup m r.Name
  | [], m, r, hr, _ => absurd hr (List.not_mem_nil r)
  | rr :: rest, m, r, hr, hnd => by
    rw [List.map_cons, List.nodup_cons] at hnd
    rw [List.foldl_cons]
    rcases List.mem_cons.mp hr with rfl | hr
    · have hout : ∀ r2 ∈ rest, r2.Name ≠ r.Name := by
        intro r2 h2 heq
        exact hnd.1 (heq ▸ List.mem_map_of_mem HRule.Name h2)
      rw [matchPosts_inner_other post r.Name rest _ hout]
      cases hm : r.Match post
      · simp [hm]
      · simp [hm, mapLookup]
    · have hne : rr.Name ≠ r.Name := by
        intro heq
        exact hnd.1 (heq ▸ List.mem_map_of_mem HRule.Name hr)
      rw [matchPosts_inner_at post rest _ r hr hnd.2]
      cases hm : rr.Match post
      · simp
      · have : r.Name ≠ rr.Name := fun h => hne h.symm
        simp [mapLookup, this]

/-- Running the outer loop over the posts computes, at the key of a
uniquely-named rule, the last post that rule matched (starting from the
key's previous binding). -/
theorem matchPosts_outer_at (rules : List HRule) (r : HRule)
    (hr : r ∈ rules) (hnd : (rules.map HRule.Name).Nodup) :
    ∀ (posts : List Post) (m : List (List Char × Post)),
    mapLookup
      (posts.foldl
        (fun m post =>
          rules.foldl (fun m2 rr => if rr.Match post then (rr.Name, post) :: m2 else m2) m)
        m)
      r.Name =
      posts.foldl (fun acc p => if r.Match p then some p else acc) (mapLookup m r.Name)
  | [], m => rfl
  | p :: rest, m => by
    rw [List.foldl_cons, List.foldl_cons, matchPosts_outer_at rules r hr hnd rest _,
      matchPosts_inner_at p rules m r hr hnd]

/-- A fold keeping the last matching post is `none` exactly when nothing
matched (and the start was `none`). -/
theorem lastMatch_none (r : HRule) : ∀ (posts : List Post) (acc : Option Post),
    (posts.foldl (fun acc p => if r.Match p then some p else acc) acc = none ↔
      acc = none ∧ ∀ p ∈ posts, r.Match p = false)
  | [], acc => by simp
  | p :: rest, acc => by
    rw [List.foldl_cons, lastMatch_none r rest _]
    cases hm : r.Match p
    · rw [if_neg (by decide : ¬ (false = true))]
      constructor
      · rintro ⟨h1, h2⟩
        exact ⟨h1, fun q hq => by
          rcases List.mem_cons.mp hq with rfl | hq
          · exact hm
          · exact h2 q hq⟩
      · rintro ⟨h1, h2⟩
        exact ⟨h1, fun q hq => h2 q (List.mem_cons_of_mem p hq)⟩
    · rw [if_pos (by decide : (true = true))]
      constructor
      · rintro ⟨h1, -⟩
        exact absurd h1 (Option.some_ne_none p)
      · rintro ⟨-, h2⟩
        exact absurd hm (by simp [h2 p (List.mem_cons_self p rest)])

/-- Claim C4, counterexample to the claim as stated: with two distinct rules
sharing the name `"n"` — `RnA` matching only `P2ex`, `RnB` matching only
`P1ex` — the result maps `RnB.Name()` to `P2ex`, not to the last post
`RnB` matched (`P1ex`): the claim's universal quantification over every rule
sequence fails on duplicate names. -/
theorem claim4_counterexample :
    RnB ∈ [RnA, RnB] ∧
    lastMatch RnB [P1ex, P2ex] = some P1ex ∧
    mapLookup (matchPosts [RnA, RnB] [P1ex, P2ex]) RnB.Name = some P2ex ∧
    some P1ex ≠ some P2ex := by
  refine ⟨List.mem_cons_of_mem RnA (List.mem_cons_self RnB []), by decide, by decide, by decide⟩

/-- Claim C4 (amended with pairwise-distinct rule names): `matchPosts` maps
each rule's name to the last post in batch order that the rule matched, and
the name is absent exactly when the rule matched no post. -/
theorem claim4_last_match (rules : List HRule) (posts : List Post)
    (hnd : (rules.map HRule.Name).Nodup) (r : HRule) (hr : r ∈ rules) :
    mapLookup (matchPosts rules posts) r.Name = lastMatch r posts ∧
    (mapLookup (matchPosts rules posts) r.Name = none ↔
      ∀ p ∈ posts, r.Match p = false) := by
  have heq : mapLookup (matchPosts rules posts) r.Name = lastMatch r posts := by
    rw [matchPosts, lastMatch, matchPosts_outer_at rules r hr hnd posts []]
    rfl
  refine ⟨heq, ?_⟩
  rw [heq, lastMatch]
  rw [lastMatch_none r posts none]
  simp

/-- Witness for claim C4: a single rule matching both example posts is
mapped to the second (last) one. -/
theorem claim4_witness :
    mapLookup (matchPosts [R1ex] [P1ex, P2ex]) R1ex.Name = some P2ex := by
  have h := (claim4_last_match [R1ex] [P1ex, P2ex] (by simp)
    R1ex (List.mem_cons_self R1ex [])).1
  rw [h]
  decide

/-! ## The rule registry -/

/-- Claim C7: registering a rule and looking its name up returns that very
rule value, and when two rules share a name the later registration wins. -/
theorem claim7_register_lookup :
    (∀ (reg : RuleRegistry) (r : RegRule),
      RuleInRuleRegistry (RegisterRule reg r) r.name = .ok r) ∧
    (∀ (reg : RuleRegistry) (r1 r2 : RegRule), r1.name = r2.name →
      RuleInRuleRegistry (RegisterRule (RegisterRule reg r1) r2) r2.name = .ok r2) := by
  constructor
  · intro reg r
    simp [RuleInRuleRegistry, RegisterRule, lookupMap]
  · intro reg r1 r2 _
    simp [RuleInRuleRegistry, RegisterRule, lookupMap]

/-- Witness for claim C7: two rules named `"a"`; the lookup returns the
second registration. -/
theorem claim7_witness :
    RuleInRuleRegistry (RegisterRule (RegisterRule [] ⟨"a".data, 1⟩) ⟨"a".data, 2⟩)
      "a".data = .ok ⟨"a".data, 2⟩ :=
  claim7_register_lookup.2 [] ⟨"a".data, 1⟩ ⟨"a".data, 2⟩ rfl

/-- A successful lookup returns a rule keyed under the looked-up name. -/
theorem lookupMap_mem : ∀ (reg : RuleRegistry) (n : List Char) (r : RegRule),
    lookupMap reg n = some r → (n, r) ∈ reg
  | [], n, r, h => by simp [lookupMap] at h
  | (k, q) :: rest, n, r, h => by
    rw [lookupMap] at h
    by_cases hk : n = k
    · rw [if_pos hk] at h
      obtain rfl := Option.some.inj h
      subst hk
      exact List.mem_cons_self (n, q) rest
    · rw [if_neg hk] at h
      exact List.mem_cons_of_mem _ (lookupMap_mem rest n r h)

/-- `GetRegisteredRules` on fully resolvable names returns them all, in
input order, with no error. -/
theorem GetRegisteredRules_ok (reg : RuleRegistry) :
    ∀ (names : List (List Char)) (acc : List RegRule),
    (∀ n ∈ names, (lookupMap reg n).isSome) →
    GetRegisteredRules reg names acc = (acc ++ names.filterMap (lookupMap reg), none)
  | [], acc, _ => by simp [GetRegisteredRules]
  | n :: rest, acc, h => by
    have hn := h n (List.mem_cons_self n rest)
    obtain ⟨r, hr⟩ := Option.isSome_iff_exists.mp hn
    simp only [GetRegisteredRules, RuleInRuleRegistry, hr]
    rw [GetRegisteredRules_ok reg rest (acc ++ [r])
      (fun m hm => h m (List.mem_cons_of_mem n hm))]
    simp [List.filterMap_cons, hr]

/-- `GetRegisteredRules` on a failing run: the names split at a first
unresolvable one, the error carries it, and the accumulated rules are the
resolutions of the names before it. -/
theorem GetRegisteredRules_err (reg : RuleRegistry) :
    ∀ (names : List (List Char)) (acc rs : List RegRule) (e : RuleErr),
    GetRegisteredRules reg names acc = (rs, some e) →
    ∃ pre bad rest, names = pre ++ bad :: rest ∧ lookupMap reg bad = none ∧
      e = .notFound bad ∧ (∀ n ∈ pre, (lookupMap reg n).isSome) ∧
      rs = acc ++ pre.filterMap (lookupMap reg)
  | [], acc, rs, e, h => by
    rw [GetRegisteredRules] at h
    exact absurd h (by simp)
  | n :: rest, acc, rs, e, h => by
    rw [GetRegisteredRules, RuleInRuleRegistry] at h
    cases hl : lookupMap reg n with
    | some r =>
      rw [hl] at h
      obtain ⟨pre, bad, rest2, h1, h2, h3, h4, h5⟩ :=
        GetRegisteredRules_err reg rest (acc ++ [r]) rs e h
      refine ⟨n :: pre, bad, rest2, by simp [h1], h2, h3, ?_, ?_⟩
      · intro m hm
        rcases List.mem_cons.mp hm with rfl | hm
        · simp [hl]
        · exact h4 m hm
      · rw [h5, List.filterMap_cons]
        simp [hl]
    | none =>
      rw [hl] at h
      simp only [Prod.mk.injEq, Option.some.injEq] at h
      refine ⟨[], n, rest, rfl, hl, h.2.symm, by simp, by simp [h.1]⟩

/-- Claim C6: bulk lookup resolves names in order; it fails fast on the
first unregistered name, returning an error identifying it together with the
rules resolved before it, and on full resolution returns the rules in input
order with no error. -/
theorem claim6_bulk_lookup (reg : RuleRegistry) (names : List (List Char)) :
    ((∀ n ∈ names, (lookupMap reg n).isSome) →
      GetRegisteredRules reg names [] = (names.filterMap (lookupMap reg), none)) ∧
    (∀ (rs : List RegRule) (e : RuleErr),
      GetRegisteredRules reg names [] = (rs, some e) →
      ∃ pre bad rest, names = pre ++ bad :: rest ∧ lookupMap reg bad = none ∧
        e = .notFound bad ∧ (∀ n ∈ pre, (lookupMap reg n).isSome) ∧
        rs = pre.filterMap (lookupMap reg)) := by
  constructor
  · intro h
    rw [GetRegisteredRules_ok reg names [] h]
    simp
  · intro rs e h
    obtain ⟨pre, bad, rest, h1, h2, h3, h4, h5⟩ :=
      GetRegisteredRules_err reg names [] rs e h
    exact ⟨pre, bad, rest, h1, h2, h3, h4, by simpa using h5⟩

/-- Witness for claim C6: with only `"a"` registered, looking up `["a"]`
succeeds in order and looking up `["b"]` fails identifying `"b"`. -/
theorem claim6_witness :
    GetRegisteredRules (RegisterRule [] ⟨"a".data, 0⟩) ["a".data] [] =
      ([⟨"a".data, 0⟩], none) ∧
    ∃ pre bad rest, ["b".data] = pre ++ bad :: rest ∧
      lookupMap (RegisterRule [] ⟨"a".data, 0⟩) bad = none ∧
      RuleErr.notFound "b".data = .notFound bad ∧
      (∀ n ∈ pre, (lookupMap (RegisterRule [] ⟨"a".data, 0⟩) n).isSome) ∧
      ([] : List RegRule) = pre.filterMap (lookupMap (RegisterRule [] ⟨"a".data, 0⟩)) := by
  constructor
  · rw [(claim6_bulk_lookup (RegisterRule [] ⟨"a".data, 0⟩) ["a".data]).1 (by decide)]
    decide
  · exact (claim6_bulk_lookup (RegisterRule [] ⟨"a".data, 0⟩) ["b".data]).2
      [] (.notFound "b".data) (by decide)

/-! ## The configuration binder (`main.getRules`) -/

/-- A successful binder step resolves the entry's id (so the returned rule is
named by it, in a name-coherent registry) and keeps the registry
name-coherent. -/
theorem getRulesStep_ok (reg : RuleRegistry) (rc : RuleConfig) (reg2 : RuleRegistry)
    (r2 : RegRule) (hco : ∀ kv ∈ reg, (kv : List Char × RegRule).2.name = kv.1)
    (h : getRulesStep reg rc = .ok (reg2, r2)) :
    r2.name = rc.id ∧ (∀ kv ∈ reg2, (kv : List Char × RegRule).2.name = kv.1) := by
  cases hl : lookupMap reg rc.id with
  | none =>
    exfalso
    rcases hc : rc.configs with - | p
    · simp only [getRulesStep, hc, RuleInRuleRegistry, hl] at h
      exact Except.noConfusion h
    · rcases p with n | - | - | - <;>
      · simp only [getRulesStep, hc, RuleInRuleRegistry, hl, marshalConfigs] at h
        exact Except.noConfusion h
  | some r0 =>
    have hname : r0.name = rc.id := hco (rc.id, r0) (lookupMap_mem reg rc.id r0 hl)
    rcases hc : rc.configs with - | p
    · simp only [getRulesStep, hc, RuleInRuleRegistry, hl, Except.ok.injEq,
        Prod.mk.injEq] at h
      obtain ⟨rfl, rfl⟩ := h
      exact ⟨hname, hco⟩
    · rcases p with n | - | - | -
      · simp only [getRulesStep, hc, RuleInRuleRegistry, hl, marshalConfigs,
          RegRule.RegisterConfigs, Except.ok.injEq, Prod.mk.injEq] at h
        obtain ⟨rfl, rfl⟩ := h
        refine ⟨hname, ?_⟩
        intro kv hkv
        rcases List.mem_cons.mp hkv with rfl | hkv
        · exact hname
        · exact hco kv hkv
      · simp only [getRulesStep, hc, RuleInRuleRegistry, hl, marshalConfigs,
          RegRule.RegisterConfigs, Except.ok.injEq, Prod.mk.injEq] at h
        obtain ⟨rfl, rfl⟩ := h
        refine ⟨hname, ?_⟩
        intro kv hkv
        rcases List.mem_cons.mp hkv with rfl | hkv
        · exact hname
        · exact hco kv hkv
      · simp only [getRulesStep, hc, RuleInRuleRegistry, hl, marshalConfigs,
          RegRule.RegisterConfigs] at h
        exact Except.noConfusion h
      · simp only [getRulesStep, hc, RuleInRuleRegistry, hl, marshalConfigs] at h
        exact Except.noConfusion h

/-- On a fully successful binder run the resolved rules carry the entries'
ids in input order (in a name-coherent registry). -/
theorem getRules_ok_names : ∀ (rcs : List RuleConfig) (reg : RuleRegistry)
    (acc : List RegRule) (reg2 : RuleRegistry) (rs : List RegRule),
    (∀ kv ∈ reg, (kv : List Char × RegRule).2.name = kv.1) →
    getRules reg rcs acc = (reg2, rs, none) →
    rs.map RegRule.name = acc.map RegRule.name ++ rcs.map RuleConfig.id
  | [], reg, acc, reg2, rs, _, h => by
    rw [getRules] at h
    simp only [Prod.mk.injEq] at h
    rw [← h.2.1]
    simp
  | rc :: rest, reg, acc, reg2, rs, hco, h => by
    rw [getRules] at h
    cases hs : getRulesStep reg rc with
    | error e =>
      rw [hs] at h
      simp at h
    | ok pr =>
      obtain ⟨regB, r⟩ := pr
      rw [hs] at h
      obtain ⟨hname, hcoB⟩ := getRulesStep_ok reg rc regB r hco hs
      rw [getRules_ok_names rest regB (acc ++ [r]) reg2 rs hcoB h]
      simp [hname]

/-- A failing binder run splits at a first failing entry: the returned
registry and partial rule list are exactly those of the successful run on the
earlier entries (nothing is rolled back), and the step on the failing entry
produces the returned error. -/
theorem getRules_err_split : ∀ (rcs : List RuleConfig) (reg : RuleRegistry)
    (acc : List RegRule) (reg2 : RuleRegistry) (rs : List RegRule) (e : BindErr),
    getRules reg rcs acc = (reg2, rs, some e) →
    ∃ pre rc rest, rcs = pre ++ rc :: rest ∧
      getRules reg pre acc = (reg2, rs, none) ∧ getRulesStep reg2 rc = .error e
  | [], reg, acc, reg2, rs, e, h => by
    rw [getRules] at h
    exact absurd h (by simp)
  | rc :: rest, reg, acc, reg2, rs, e, h => by
    rw [getRules] at h
    cases hs : getRulesStep reg rc with
    | error e0 =>
      rw [hs] at h
      simp only [Prod.mk.injEq, Option.some.injEq] at h
      refine ⟨[], rc, rest, rfl, ?_, ?_⟩
      · rw [getRules, h.1, h.2.1]
      · rw [← h.1, hs, h.2.2]
    | ok pr =>
      obtain ⟨regB, r⟩ := pr
      rw [hs] at h
      obtain ⟨pre, rc2, rest2, h1, h2, h3⟩ :=
        getRules_err_split rest regB (acc ++ [r]) reg2 rs e h
      refine ⟨rc :: pre, rc2, rest2, by simp [h1], ?_, h3⟩
      rw [getRules, hs]
      exact h2

/-- Claim C5: the binder processes entries in input order; on the first
entry that cannot be resolved or configured it returns the error with
everything done so far left in place (the registry after the failure is
exactly the registry after the successful prefix — no rollback), and on
success the returned rules follow the entries' input order. -/
theorem claim5_binder (reg : RuleRegistry) (rcs : List RuleConfig) :
    (∀ (reg2 : RuleRegistry) (rs : List RegRule) (e : BindErr),
      getRules reg rcs [] = (reg2, rs, some e) →
      ∃ pre rc rest, rcs = pre ++ rc :: rest ∧
        getRules reg pre [] = (reg2, rs, none) ∧ getRulesStep reg2 rc = .error e) ∧
    (∀ (reg2 : RuleRegistry) (rs : List RegRule),
      (∀ kv ∈ reg, (kv : List Char × RegRule).2.name = kv.1) →
      getRules reg rcs [] = (reg2, rs, none) →
      rs.map RegRule.name = rcs.map RuleConfig.id) := by
  constructor
  · exact fun reg2 rs e h => getRules_err_split rcs reg [] reg2 rs e h
  · intro reg2 rs hco h
    have := getRules_ok_names rcs reg [] reg2 rs hco h
    simpa using this

/-- Witness for claim C5: entry `a` (setting price 5) succeeds, entry `b`
fails to resolve; the run splits there, rule `a` stays configured at price 5
in the returned registry, and the successful prefix yields names in input
order. -/
theorem claim5_witness :
    (∃ pre rc rest,
      [RuleConfig.mk "a".data (some (.setPrice 5)), RuleConfig.mk "b".data none] =
        pre ++ rc :: rest ∧
      getRules (RegisterRule [] ⟨"a".data, 0⟩) pre [] =
        (("a".data, RegRule.mk "a".data 5) :: RegisterRule [] ⟨"a".data, 0⟩,
          [RegRule.mk "a".data 5], none) ∧
      getRulesStep
        (("a".data, RegRule.mk "a".data 5) :: RegisterRule [] ⟨"a".data, 0⟩) rc =
        .error (.notFound "b".data)) ∧
    [RegRule.mk "a".data 5].map RegRule.name =
      [RuleConfig.mk "a".data (some (.setPrice 5))].map RuleConfig.id := by
  constructor
  · exact (claim5_binder (RegisterRule [] ⟨"a".data, 0⟩)
      [RuleConfig.mk "a".data (some (.setPrice 5)), RuleConfig.mk "b".data none]).1
      (("a".data, RegRule.mk "a".data 5) :: RegisterRule [] ⟨"a".data, 0⟩)
      [RegRule.mk "a".data 5] (.notFound "b".data) (by decide)
  · exact (claim5_binder (RegisterRule [] ⟨"a".data, 0⟩)
      [RuleConfig.mk "a".data (some (.setPrice 5))]).2
      (("a".data, RegRule.mk "a".data 5) :: RegisterRule [] ⟨"a".data, 0⟩)
      [RegRule.mk "a".data 5] (by decide) (by decide)

end Rsb
